import Mathlib

/-!
# Verification of `RandomAllocationStrategy::Allocate`

Shallow embedding of the allocation strategy in
`mooncake-store/include/allocation_strategy.h` (namespace `mooncake`).

The strategy receives an unordered map from segment names to buffer
allocators and an object size.  We model the map as a list of `Pool`s
(iteration order is arbitrary, so theorems quantify over all orders; the
map's unique string keys become the pools' `name` fields).  A pool's
`allocate` may fail even when its reported free space suffices
(fragmentation), so each pool carries an arbitrary `alloc` function from
requested size to an optional handle.

The Mersenne Twister `rng_` is modelled by a stream `rng : Nat → Nat` of
raw draws; `std::uniform_int_distribution<size_t>(0, eligible.size()-1)`
becomes reduction of the draw modulo the current vector size.  Quantifying
over all streams covers every realisable random behaviour.

Besides the returned handle, the embedding of `Allocate` also returns the
trace of pools whose `allocate` was called (in call order) and a Boolean
flag that is set exactly on the path where the C++ would index an empty
vector (the `eligible.size() - 1` underflow), which is undefined
behaviour in the source; we prove the flag is never set.
-/

namespace Mooncake

/-- A mounted buffer allocator ("pool") as the strategy observes it: its
segment name (the map key), `capacity()`, `size()` (bytes in use,
recorded here as `used`), and its `allocate` operation for the duration
of one strategy invocation. -/
structure Pool (H : Type) where
  name : String
  capacity : Nat
  used : Nat
  alloc : Nat → Option H

/-- Clamped availability, `size_t available = capacity > used ? (capacity - used) : 0;`. -/
def availableOf {H : Type} (p : Pool H) : Nat :=
  if p.capacity > p.used then p.capacity - p.used else 0

/-- The `eligible` vector collected by the source: pools whose clamped
available space is at least `objectSize`. -/
def eligibleOf {H : Type} (pools : List (Pool H)) (objectSize : Nat) : List (Pool H) :=
  pools.filter (fun p => decide (objectSize ≤ availableOf p))

/-- The retry cap, `const size_t max_try_limit = 10;`. -/
def max_try_limit : Nat := 10

/-- Removal of index `i` from the eligible vector, exactly as the source
does it:
`if (randomIndex + 1 != eligible.size()) eligible[randomIndex].swap(eligible.back());`
`eligible.pop_back();` -/
def swapRemove {α : Type} (l : List α) (i : Nat) : List α :=
  if i + 1 = l.length then l.dropLast
  else
    match l.getLast? with
    | some last => (l.set i last).dropLast
    | none => l.dropLast

/-- The bounded retry loop of `Allocate`.  Arguments: remaining tries
(initially `max_try`), the position in the random stream, and the current
eligible vector.  Result: `(returned handle, trace of pools whose
allocate was called, out-of-bounds flag)`.  The flag is `true` only on
the path where `eligible` is empty at a draw, where the C++
`uniform_int_distribution(0, eligible.size() - 1)` underflows and
`eligible[randomIndex]` is an out-of-bounds access. -/
def allocLoop {H : Type} (rng : Nat → Nat) (objectSize : Nat) :
    Nat → Nat → List (Pool H) → Option H × List (Pool H) × Bool
  | 0, _, _ => (none, [], false)
  | fuel + 1, step, eligible =>
    match eligible[rng step % eligible.length]? with
    | none => (none, [], true)
    | some p =>
      match p.alloc objectSize with
      | some h => (some h, [p], false)
      | none =>
        match allocLoop rng objectSize fuel (step + 1)
            (swapRemove eligible (rng step % eligible.length)) with
        | (res, tr, oob) => (res, p :: tr, oob)

/-- The embedding of `RandomAllocationStrategy::Allocate`: single-pool fast path, then the
eligibility filter, the empty-eligible early return, and the bounded
randomized retry loop with `max_try = min(max_try_limit, eligible.size())`. -/
def Allocate {H : Type} (rng : Nat → Nat) (pools : List (Pool H)) (objectSize : Nat) :
    Option H × List (Pool H) × Bool :=
  match pools with
  | [p] => (p.alloc objectSize, [p], false)
  | _ =>
    let eligible := eligibleOf pools objectSize
    if eligible.isEmpty then (none, [], false)
    else allocLoop rng objectSize (min max_try_limit eligible.length) 0 eligible

/-- The handle (or absence of one) returned to the caller. -/
def resultOf {H : Type} (r : Option H × List (Pool H) × Bool) : Option H := r.1

/-- The pools whose `allocate` was called, in call order. -/
def traceOf {H : Type} (r : Option H × List (Pool H) × Bool) : List (Pool H) := r.2.1

/-- Whether the invocation reached the out-of-bounds indexing path. -/
def oobOf {H : Type} (r : Option H × List (Pool H) × Bool) : Bool := r.2.2

/-! ## Concrete pools used to instantiate the theorems

Handles are modelled by `Nat`. -/

/-- A fully occupied pool whose `allocate` always fails. -/
def failPool : Pool Nat := { name := "p1", capacity := 10, used := 10, alloc := fun _ => none }

/-- Scenario A: capacity 100, used 90 (available 10). -/
def poolSmall : Pool Nat := { name := "p1", capacity := 100, used := 90, alloc := fun _ => some 1 }

/-- Scenario A: capacity 100, used 0 (available 100). -/
def poolBig : Pool Nat := { name := "p2", capacity := 100, used := 0, alloc := fun _ => some 2 }

/-- An empty pool whose `allocate` nevertheless fails (fragmentation). -/
def failA : Pool Nat := { name := "a", capacity := 100, used := 0, alloc := fun _ => none }

/-- A second empty pool whose `allocate` fails. -/
def failB : Pool Nat := { name := "b", capacity := 100, used := 0, alloc := fun _ => none }

/-- A fully occupied pool that would succeed if (wrongly) attempted. -/
def fullA : Pool Nat := { name := "fa", capacity := 10, used := 10, alloc := fun _ => some 9 }

/-- A second fully occupied pool that would succeed if attempted. -/
def fullB : Pool Nat := { name := "fb", capacity := 10, used := 10, alloc := fun _ => some 9 }

/-- An empty pool whose `allocate` succeeds with handle 7. -/
def okPool : Pool Nat := { name := "ok1", capacity := 100, used := 0, alloc := fun _ => some 7 }

/-- A second empty pool whose `allocate` succeeds with handle 8. -/
def okPool2 : Pool Nat := { name := "ok2", capacity := 100, used := 0, alloc := fun _ => some 8 }

/-- Scenario C: fifteen eligible pools with distinct names, all of whose
`allocate` calls fail. -/
def pools15 : List (Pool Nat) :=
  [{ name := "c01", capacity := 100, used := 0, alloc := fun _ => none },
   { name := "c02", capacity := 100, used := 0, alloc := fun _ => none },
   { name := "c03", capacity := 100, used := 0, alloc := fun _ => none },
   { name := "c04", capacity := 100, used := 0, alloc := fun _ => none },
   { name := "c05", capacity := 100, used := 0, alloc := fun _ => none },
   { name := "c06", capacity := 100, used := 0, alloc := fun _ => none },
   { name := "c07", capacity := 100, used := 0, alloc := fun _ => none },
   { name := "c08", capacity := 100, used := 0, alloc := fun _ => none },
   { name := "c09", capacity := 100, used := 0, alloc := fun _ => none },
   { name := "c10", capacity := 100, used := 0, alloc := fun _ => none },
   { name := "c11", capacity := 100, used := 0, alloc := fun _ => none },
   { name := "c12", capacity := 100, used := 0, alloc := fun _ => none },
   { name := "c13", capacity := 100, used := 0, alloc := fun _ => none },
   { name := "c14", capacity := 100, used := 0, alloc := fun _ => none },
   { name := "c15", capacity := 100, used := 0, alloc := fun _ => none }]

/-! ## Properties of `swapRemove` -/

/-- When the removed index is not the last one, swap-with-last-and-pop on
`init ++ [last]` overwrites position `i` with `last` and drops the back. -/
theorem swapRemove_concat_lt {α : Type} (init : List α) (last : α) (i : Nat)
    (hi : i < init.length) :
    swapRemove (init ++ [last]) i = init.set i last := by
  unfold swapRemove
  rw [if_neg (by simp; omega), List.getLast?_concat]
  show ((init ++ [last]).set i last).dropLast = init.set i last
  rw [List.set_append_left _ _ (by omega), List.dropLast_concat]

/-- When the removed index is the last one, swap-with-last-and-pop is just
`pop_back`. -/
theorem swapRemove_concat_last {α : Type} (init : List α) (last : α) :
    swapRemove (init ++ [last]) init.length = init := by
  unfold swapRemove
  rw [if_pos (by simp), List.dropLast_concat]

open List in
/-- Swap-with-last-and-pop removes exactly the element at index `i`: the
original vector is a permutation of that element consed onto the result. -/
theorem perm_swapRemove {α : Type} (l : List α) (i : Nat) (h : i < l.length) :
    l.Perm (l.get ⟨i, h⟩ :: swapRemove l i) := by
  have hne : l ≠ [] := by intro e; subst e; simp at h
  obtain ⟨init, last, hl⟩ : ∃ init last, l = init ++ [last] :=
    ⟨l.dropLast, l.getLast hne, (List.dropLast_concat_getLast hne).symm⟩
  subst hl
  rcases Nat.lt_or_ge i init.length with hi | hi
  · rw [swapRemove_concat_lt init last i hi]
    have hgi : (init ++ [last]).get ⟨i, h⟩ = init.get ⟨i, hi⟩ := by
      simp [List.getElem_append_left hi]
    rw [hgi]
    calc init ++ [last] ~ last :: init := List.perm_append_singleton _ _
      _ = last :: (init.take i ++ init.drop i) := by rw [List.take_append_drop]
      _ = last :: (init.take i ++ init.get ⟨i, hi⟩ :: init.drop (i + 1)) := by
          rw [List.drop_eq_getElem_cons hi]; simp
      _ ~ last :: init.get ⟨i, hi⟩ :: (init.take i ++ init.drop (i + 1)) :=
          List.Perm.cons _ List.perm_middle
      _ ~ init.get ⟨i, hi⟩ :: last :: (init.take i ++ init.drop (i + 1)) :=
          List.Perm.swap _ _ _
      _ ~ init.get ⟨i, hi⟩ :: (init.take i ++ last :: init.drop (i + 1)) :=
          List.Perm.cons _ List.perm_middle.symm
      _ = init.get ⟨i, hi⟩ :: init.set i last := by
          rw [List.set_eq_take_cons_drop _ hi]
  · have hieq : i = init.length := by simp at h; omega
    subst hieq
    rw [swapRemove_concat_last]
    have hgi : (init ++ [last]).get ⟨init.length, h⟩ = last := by simp
    rw [hgi]
    exact List.perm_append_singleton _ _

/-- Removal shrinks the vector by exactly one element. -/
theorem length_swapRemove {α : Type} (l : List α) (i : Nat) (h : i < l.length) :
    (swapRemove l i).length = l.length - 1 := by
  have := (perm_swapRemove l i h).length_eq
  simp at this
  omega

/-- Removal never introduces elements. -/
theorem mem_of_mem_swapRemove {α : Type} {l : List α} {i : Nat} (h : i < l.length)
    {a : α} (ha : a ∈ swapRemove l i) : a ∈ l :=
  (perm_swapRemove l i h).mem_iff.mpr (List.mem_cons_of_mem _ ha)

/-- If the images of the vector under `f` are pairwise distinct, removal
keeps them distinct and genuinely removes the image of the removed
element. -/
theorem nodup_map_swapRemove {α β : Type} (f : α → β) {l : List α} {i : Nat}
    (h : i < l.length) (hn : (l.map f).Nodup) :
    ((swapRemove l i).map f).Nodup ∧ f (l.get ⟨i, h⟩) ∉ (swapRemove l i).map f := by
  have hp : (l.map f).Perm (f (l.get ⟨i, h⟩) :: (swapRemove l i).map f) := by
    simpa using (perm_swapRemove l i h).map f
  have hcons := hp.nodup_iff.mp hn
  rw [List.nodup_cons] at hcons
  exact ⟨hcons.2, hcons.1⟩

/-! ## Invariants of the retry loop -/

/-- Every pool whose `allocate` is called by the loop comes from the
eligible vector the loop started with. -/
theorem allocLoop_trace_subset {H : Type} (rng : Nat → Nat) (objectSize : Nat) :
    ∀ (fuel step : Nat) (el : List (Pool H)),
      ∀ p ∈ (allocLoop rng objectSize fuel step el).2.1, p ∈ el
  | 0, step, el => by simp [allocLoop]
  | fuel + 1, step, el => by
    simp only [allocLoop]
    cases hq : el[rng step % el.length]? with
    | none => simp
    | some q =>
      have hqel : q ∈ el := List.getElem?_mem hq
      obtain ⟨hidx, hget⟩ := List.getElem?_eq_some_iff.mp hq
      cases ha : q.alloc objectSize with
      | some h => simp only [ha]; simpa using hqel
      | none =>
        have IH := allocLoop_trace_subset rng objectSize fuel (step + 1)
          (swapRemove el (rng step % el.length))
        simp only [ha]
        intro p hp
        simp only [List.mem_cons] at hp
        rcases hp with rfl | hp
        · exact hqel
        · exact mem_of_mem_swapRemove hidx (IH p hp)

/-- The loop calls `allocate` at most once per remaining try. -/
theorem allocLoop_trace_length_le {H : Type} (rng : Nat → Nat) (objectSize : Nat) :
    ∀ (fuel step : Nat) (el : List (Pool H)),
      (allocLoop rng objectSize fuel step el).2.1.length ≤ fuel
  | 0, step, el => by simp [allocLoop]
  | fuel + 1, step, el => by
    simp only [allocLoop]
    cases hq : el[rng step % el.length]? with
    | none => simp
    | some q =>
      cases ha : q.alloc objectSize with
      | some h => simp [ha]
      | none =>
        have IH := allocLoop_trace_length_le rng objectSize fuel (step + 1)
          (swapRemove el (rng step % el.length))
        simp only [ha, List.length_cons]
        exact Nat.succ_le_succ IH

/-- When every pool in the eligible vector fails, the loop makes exactly
`min fuel el.length` calls. -/
theorem allocLoop_trace_length_allfail {H : Type} (rng : Nat → Nat) (objectSize : Nat) :
    ∀ (fuel step : Nat) (el : List (Pool H)),
      (∀ p ∈ el, p.alloc objectSize = none) →
      (allocLoop rng objectSize fuel step el).2.1.length = min fuel el.length
  | 0, step, el => by simp [allocLoop]
  | fuel + 1, step, el => by
    intro hfail
    simp only [allocLoop]
    cases hq : el[rng step % el.length]? with
    | none =>
      have hlen : el.length = 0 := by
        by_contra hne
        have hlt : rng step % el.length < el.length :=
          Nat.mod_lt _ (Nat.pos_of_ne_zero hne)
        rw [List.getElem?_eq_getElem hlt] at hq
        exact Option.noConfusion hq
      simp [hlen]
    | some q =>
      have hqel : q ∈ el := List.getElem?_mem hq
      obtain ⟨hidx, hget⟩ := List.getElem?_eq_some_iff.mp hq
      cases ha : q.alloc objectSize with
      | some h => exact absurd ha (by simp [hfail q hqel])
      | none =>
        have IH := allocLoop_trace_length_allfail rng objectSize fuel (step + 1)
          (swapRemove el (rng step % el.length))
          (fun p hp => hfail p (mem_of_mem_swapRemove hidx hp))
        rw [length_swapRemove el _ hidx] at IH
        simp only [ha, List.length_cons]
        rw [IH]
        omega

/-- As soon as a call succeeds the loop returns that pool's handle and
stops: any successful pool in the trace is the last attempted one and its
handle is the loop's result. -/
theorem allocLoop_first_success {H : Type} (rng : Nat → Nat) (objectSize : Nat) :
    ∀ (fuel step : Nat) (el : List (Pool H)),
      ∀ p ∈ (allocLoop rng objectSize fuel step el).2.1,
        (p.alloc objectSize).isSome →
        (allocLoop rng objectSize fuel step el).1 = p.alloc objectSize ∧
        (allocLoop rng objectSize fuel step el).2.1.getLast? = some p
  | 0, step, el => by simp [allocLoop]
  | fuel + 1, step, el => by
    simp only [allocLoop]
    cases hq : el[rng step % el.length]? with
    | none => simp
    | some q =>
      cases ha : q.alloc objectSize with
      | some h =>
        simp only [ha]
        intro p hp hps
        simp only [List.mem_singleton] at hp
        subst hp
        exact ⟨ha.symm, by simp⟩
      | none =>
        have IH := allocLoop_first_success rng objectSize fuel (step + 1)
          (swapRemove el (rng step % el.length))
        simp only [ha]
        intro p hp hps
        simp only [List.mem_cons] at hp
        rcases hp with rfl | hp
        · rw [ha] at hps; simp at hps
        · obtain ⟨h1, h2⟩ := IH p hp hps
          refine ⟨h1, ?_⟩
          rw [List.getLast?_cons, h2]
          simp

/-- Any handle the loop returns was produced by the `allocate` call of a
pool in the trace. -/
theorem allocLoop_result_mem {H : Type} (rng : Nat → Nat) (objectSize : Nat) :
    ∀ (fuel step : Nat) (el : List (Pool H)) (h : H),
      (allocLoop rng objectSize fuel step el).1 = some h →
      ∃ p ∈ (allocLoop rng objectSize fuel step el).2.1, p.alloc objectSize = some h
  | 0, step, el => by simp [allocLoop]
  | fuel + 1, step, el => by
    intro h
    simp only [allocLoop]
    cases hq : el[rng step % el.length]? with
    | none => simp
    | some q =>
      cases ha : q.alloc objectSize with
      | some h0 =>
        simp only [ha]
        intro hres
        exact ⟨q, by simp, by rw [ha, ← hres]⟩
      | none =>
        have IH := allocLoop_result_mem rng objectSize fuel (step + 1)
          (swapRemove el (rng step % el.length)) h
        simp only [ha]
        intro hres
        obtain ⟨p, hp, hpa⟩ := IH hres
        exact ⟨p, List.mem_cons_of_mem _ hp, hpa⟩

/-- With try budget at most the size of the eligible vector, the loop
never reaches the out-of-bounds indexing path: the vector is non-empty at
every draw and the drawn index is always within bounds. -/
theorem allocLoop_oob_false {H : Type} (rng : Nat → Nat) (objectSize : Nat) :
    ∀ (fuel step : Nat) (el : List (Pool H)), fuel ≤ el.length →
      (allocLoop rng objectSize fuel step el).2.2 = false
  | 0, step, el => by simp [allocLoop]
  | fuel + 1, step, el => by
    intro hfe
    simp only [allocLoop]
    cases hq : el[rng step % el.length]? with
    | none =>
      have hlt : rng step % el.length < el.length := Nat.mod_lt _ (by omega)
      rw [List.getElem?_eq_getElem hlt] at hq
      exact Option.noConfusion hq
    | some q =>
      obtain ⟨hidx, hget⟩ := List.getElem?_eq_some_iff.mp hq
      cases ha : q.alloc objectSize with
      | some h => simp [ha]
      | none =>
        have IH := allocLoop_oob_false rng objectSize fuel (step + 1)
          (swapRemove el (rng step % el.length))
          (by rw [length_swapRemove el _ hidx]; omega)
        simp only [ha]
        exact IH

/-- If the pools in the eligible vector have pairwise distinct names, so
do the pools in the trace: no pool is attempted twice. -/
theorem allocLoop_trace_nodup {H : Type} (rng : Nat → Nat) (objectSize : Nat) :
    ∀ (fuel step : Nat) (el : List (Pool H)),
      (el.map Pool.name).Nodup →
      ((allocLoop rng objectSize fuel step el).2.1.map Pool.name).Nodup
  | 0, step, el => by simp [allocLoop]
  | fuel + 1, step, el => by
    intro hn
    simp only [allocLoop]
    cases hq : el[rng step % el.length]? with
    | none => simp
    | some q =>
      obtain ⟨hidx, hget⟩ := List.getElem?_eq_some_iff.mp hq
      cases ha : q.alloc objectSize with
      | some h => simp [ha]
      | none =>
        obtain ⟨hnd, hnotm⟩ := nodup_map_swapRemove Pool.name hidx hn
        have IH := allocLoop_trace_nodup rng objectSize fuel (step + 1)
          (swapRemove el (rng step % el.length)) hnd
        simp only [ha, List.map_cons, List.nodup_cons]
        refine ⟨?_, IH⟩
        intro hmem
        obtain ⟨p, hp, hpname⟩ := List.mem_map.mp hmem
        have hpsw := allocLoop_trace_subset rng objectSize fuel (step + 1)
          (swapRemove el (rng step % el.length)) p hp
        have hqget : el.get ⟨rng step % el.length, hidx⟩ = q := by simpa using hget
        rw [hqget] at hnotm
        exact hnotm (hpname ▸ List.mem_map_of_mem Pool.name hpsw)

/-- Unfolding of `Allocate` whenever the pool set does not have exactly
one pool: the fast path is skipped and the filter / early return / retry
loop run. -/
theorem Allocate_ne_one {H : Type} (rng : Nat → Nat) (pools : List (Pool H))
    (objectSize : Nat) (hlen : pools.length ≠ 1) :
    Allocate rng pools objectSize =
      if (eligibleOf pools objectSize).isEmpty then (none, [], false)
      else
        allocLoop rng objectSize
          (min max_try_limit (eligibleOf pools objectSize).length) 0
          (eligibleOf pools objectSize) := by
  cases pools with
  | nil => rfl
  | cons p rest =>
    cases rest with
    | nil => exact absurd rfl hlen
    | cons q rest2 => rfl

/-- The eligible vector inherits distinct names from the pool set. -/
theorem eligibleOf_map_name_nodup {H : Type} (pools : List (Pool H)) (objectSize : Nat)
    (hn : (pools.map Pool.name).Nodup) :
    ((eligibleOf pools objectSize).map Pool.name).Nodup :=
  hn.sublist ((List.filter_sublist pools).map Pool.name)

/-! ## The claims -/

/-- C3: if the pool set contains exactly one pool, `Allocate` calls that
pool's `allocate` exactly once (the trace is `[p]`), regardless of its
reported capacity and usage, and returns exactly what that call returns;
in particular if the call fails the overall result is no handle with no
further attempt. -/
theorem single_pool_fast_path {H : Type} (rng : Nat → Nat) (p : Pool H) (objectSize : Nat) :
    Allocate rng [p] objectSize = (p.alloc objectSize, [p], false) := rfl

/-- C10: for the empty pool set, `Allocate` returns no handle for every
requested size without calling any pool operation (empty trace): the
fast path is not taken and the empty-eligible early return fires. -/
theorem empty_pool_set {H : Type} (rng : Nat → Nat) (objectSize : Nat) :
    Allocate rng ([] : List (Pool H)) objectSize = (none, [], false) := rfl

/-- C1 (counterexample): with a single fully occupied pool and requested
size 5, the fast path calls `allocate` once although no pool is eligible,
so the number of calls exceeds `min(10, number of eligible pools) = 0`. -/
theorem retry_bound_counterexample :
    ¬ ((traceOf (Allocate (fun _ => 0) [failPool] 5)).length ≤
        min max_try_limit (eligibleOf [failPool] 5).length) := by decide

/-- C1 (amended): for every pool set whose size is not one, the number of
`allocate` calls made by one invocation never exceeds
`min(10, number of eligible pools)`; with exactly one pool the fast path
makes exactly one call instead. -/
theorem retry_bound {H : Type} (rng : Nat → Nat) (pools : List (Pool H))
    (objectSize : Nat) (hlen : pools.length ≠ 1) :
    (traceOf (Allocate rng pools objectSize)).length ≤
      min max_try_limit (eligibleOf pools objectSize).length := by
  rw [traceOf, Allocate_ne_one rng pools objectSize hlen]
  by_cases he : (eligibleOf pools objectSize).isEmpty
  · simp [he]
  · rw [if_neg he]
    exact allocLoop_trace_length_le rng objectSize _ 0 _

/-- C1 witness: the amended bound at a concrete two-pool set. -/
theorem retry_bound_witness :
    [failA, failB].length ≠ 1 ∧
    (traceOf (Allocate (fun _ => 0) [failA, failB] 5)).length ≤
      min max_try_limit (eligibleOf [failA, failB] 5).length :=
  ⟨by decide, retry_bound (fun _ => 0) [failA, failB] 5 (by decide)⟩

/-- C2 (counterexample): with a single fully occupied pool and requested
size 5, the fast path attempts a pool whose clamped available space (0)
is strictly below the requested size. -/
theorem eligibility_counterexample :
    ∃ p ∈ traceOf (Allocate (fun _ => 0) [failPool] 5), availableOf p < 5 :=
  ⟨failPool, List.mem_singleton.mpr rfl, by decide⟩

/-- C2 (amended): for every pool set whose size is not one, a pool whose
clamped available space is strictly below the requested size is never
attempted. -/
theorem eligibility_correct {H : Type} (rng : Nat → Nat) (pools : List (Pool H))
    (objectSize : Nat) (hlen : pools.length ≠ 1) :
    ∀ p ∈ traceOf (Allocate rng pools objectSize), objectSize ≤ availableOf p := by
  rw [traceOf, Allocate_ne_one rng pools objectSize hlen]
  by_cases he : (eligibleOf pools objectSize).isEmpty
  · simp [he]
  · rw [if_neg he]
    intro p hp
    have hmem := allocLoop_trace_subset rng objectSize _ 0 _ p hp
    rw [eligibleOf, List.mem_filter] at hmem
    simpa using hmem.2

/-- C2 witness: Scenario A — sizes 100/90 and 100/0, request 50; every
attempted pool has at least 50 bytes of clamped available space. -/
theorem eligibility_correct_witness :
    [poolSmall, poolBig].length ≠ 1 ∧
    ∀ p ∈ traceOf (Allocate (fun _ => 0) [poolSmall, poolBig] 50), 50 ≤ availableOf p :=
  ⟨by decide, eligibility_correct (fun _ => 0) [poolSmall, poolBig] 50 (by decide)⟩

/-- C4: for every pool set with a number of pools different from one, if
every pool's clamped available space is strictly below the requested
size, `Allocate` returns no handle and no pool's `allocate` is invoked
(empty trace, and the loop is never entered). -/
theorem exhaustion_no_eligible {H : Type} (rng : Nat → Nat) (pools : List (Pool H))
    (objectSize : Nat) (hlen : pools.length ≠ 1)
    (hall : ∀ p ∈ pools, availableOf p < objectSize) :
    Allocate rng pools objectSize = (none, [], false) := by
  have hel : eligibleOf pools objectSize = [] := by
    rw [eligibleOf, List.filter_eq_nil_iff]
    intro p hp
    simpa using Nat.not_le.mpr (hall p hp)
  rw [Allocate_ne_one rng pools objectSize hlen, hel]
  rfl

/-- C4 witness: two fully occupied pools, request 5. -/
theorem exhaustion_no_eligible_witness :
    ([fullA, fullB].length ≠ 1 ∧ ∀ p ∈ [fullA, fullB], availableOf p < 5) ∧
    Allocate (fun _ => 0) [fullA, fullB] 5 = (none, [], false) :=
  ⟨⟨by decide, by decide⟩,
   exhaustion_no_eligible (fun _ => 0) [fullA, fullB] 5 (by decide) (by decide)⟩

/-- C5: as soon as an attempted pool's `allocate` returns a handle,
`Allocate` returns that exact handle and makes no further `allocate`
calls: a successful pool in the trace is the last attempted one and its
handle is the overall result. -/
theorem first_success_wins {H : Type} (rng : Nat → Nat) (pools : List (Pool H))
    (objectSize : Nat) :
    ∀ p ∈ traceOf (Allocate rng pools objectSize), ∀ h : H,
      p.alloc objectSize = some h →
      resultOf (Allocate rng pools objectSize) = some h ∧
      (traceOf (Allocate rng pools objectSize)).getLast? = some p := by
  rcases pools with _ | ⟨p0, _ | ⟨p1, rest⟩⟩
  · intro p hp
    rw [show traceOf (Allocate rng ([] : List (Pool H)) objectSize) = [] from rfl] at hp
    exact absurd hp (List.not_mem_nil p)
  · intro p hp h hph
    simp only [traceOf, Allocate, List.mem_singleton] at hp
    subst hp
    refine ⟨?_, rfl⟩
    simpa [resultOf, Allocate] using hph
  · have hlen : (p0 :: p1 :: rest).length ≠ 1 := by simp
    rw [traceOf, resultOf, Allocate_ne_one rng _ objectSize hlen]
    by_cases he : (eligibleOf (p0 :: p1 :: rest) objectSize).isEmpty
    · simp [he]
    · rw [if_neg he]
      intro p hp h hph
      have := allocLoop_first_success rng objectSize
        (min max_try_limit (eligibleOf (p0 :: p1 :: rest) objectSize).length) 0
        (eligibleOf (p0 :: p1 :: rest) objectSize) p hp (by simp [hph])
      exact ⟨hph ▸ this.1, this.2⟩

/-- C5 witness: two succeeding pools; the random stream draws the first,
whose handle 7 is returned and which closes the trace. -/
theorem first_success_wins_witness :
    (okPool ∈ traceOf (Allocate (fun _ => 0) [okPool, okPool2] 5) ∧
      okPool.alloc 5 = some 7) ∧
    resultOf (Allocate (fun _ => 0) [okPool, okPool2] 5) = some 7 ∧
    (traceOf (Allocate (fun _ => 0) [okPool, okPool2] 5)).getLast? = some okPool :=
  ⟨⟨List.mem_singleton.mpr rfl, rfl⟩,
   first_success_wins (fun _ => 0) [okPool, okPool2] 5 okPool
     (List.mem_singleton.mpr rfl) 7 rfl⟩

/-- C6: if every `allocate` call made during one invocation fails, the
final result is no handle. -/
theorem exhaustion_after_retries {H : Type} (rng : Nat → Nat) (pools : List (Pool H))
    (objectSize : Nat)
    (hfail : ∀ p ∈ traceOf (Allocate rng pools objectSize), p.alloc objectSize = none) :
    resultOf (Allocate rng pools objectSize) = none := by
  rcases pools with _ | ⟨p0, _ | ⟨p1, rest⟩⟩
  · rfl
  · have h0 := hfail p0 (List.mem_singleton.mpr rfl)
    simpa [resultOf, Allocate] using h0
  · have hlen : (p0 :: p1 :: rest).length ≠ 1 := by simp
    rw [traceOf] at hfail
    rw [resultOf, Allocate_ne_one rng _ objectSize hlen]
    rw [Allocate_ne_one rng _ objectSize hlen] at hfail
    by_cases he : (eligibleOf (p0 :: p1 :: rest) objectSize).isEmpty
    · simp [he]
    · rw [if_neg he] at hfail ⊢
      cases hres : (allocLoop rng objectSize
          (min max_try_limit (eligibleOf (p0 :: p1 :: rest) objectSize).length) 0
          (eligibleOf (p0 :: p1 :: rest) objectSize)).1 with
      | none => rfl
      | some h =>
        obtain ⟨p, hp, hpa⟩ := allocLoop_result_mem rng objectSize _ 0 _ h hres
        exact absurd hpa (by simp [hfail p hp])

/-- C6 witness: two eligible pools whose `allocate` always fails; both
calls in the trace fail and the result is no handle. -/
theorem exhaustion_after_retries_witness :
    (∀ p ∈ traceOf (Allocate (fun _ => 0) [failA, failB] 5), p.alloc 5 = none) ∧
    resultOf (Allocate (fun _ => 0) [failA, failB] 5) = none :=
  ⟨by decide, exhaustion_after_retries (fun _ => 0) [failA, failB] 5 (by decide)⟩

/-- C7: on a pool set without the single-pool fast path and with the
map's keys pairwise distinct, no pool's `allocate` is called twice (the
trace names are pairwise distinct), and when every pool fails the number
of attempts is exactly `min(10, number of eligible pools)`. -/
theorem distinct_attempts {H : Type} (rng : Nat → Nat) (pools : List (Pool H))
    (objectSize : Nat) (hlen : pools.length ≠ 1) (hn : (pools.map Pool.name).Nodup) :
    ((traceOf (Allocate rng pools objectSize)).map Pool.name).Nodup ∧
    ((∀ p ∈ pools, p.alloc objectSize = none) →
      (traceOf (Allocate rng pools objectSize)).length =
        min max_try_limit (eligibleOf pools objectSize).length) := by
  rw [traceOf, Allocate_ne_one rng pools objectSize hlen]
  by_cases he : (eligibleOf pools objectSize).isEmpty
  · rw [List.isEmpty_iff] at he
    simp [he]
  · rw [if_neg he]
    constructor
    · exact allocLoop_trace_nodup rng objectSize _ 0 _
        (eligibleOf_map_name_nodup pools objectSize hn)
    · intro hallfail
      rw [allocLoop_trace_length_allfail rng objectSize
        (min max_try_limit (eligibleOf pools objectSize).length) 0
        (eligibleOf pools objectSize)
        (fun p hp => hallfail p (List.mem_of_mem_filter hp))]
      omega

/-- C7 witness: Scenario C — fifteen eligible pools with distinct names,
all failing; the attempted pools are pairwise distinct and exactly ten
`allocate` calls are made. -/
theorem distinct_attempts_witness :
    (pools15.length ≠ 1 ∧ (pools15.map Pool.name).Nodup) ∧
    ((traceOf (Allocate (fun _ => 0) pools15 1)).map Pool.name).Nodup ∧
    (traceOf (Allocate (fun _ => 0) pools15 1)).length = 10 :=
  ⟨⟨by decide, by decide⟩,
   (distinct_attempts (fun _ => 0) pools15 1 (by decide) (by decide)).1,
   ((distinct_attempts (fun _ => 0) pools15 1 (by decide) (by decide)).2
     (by decide)).trans (by decide)⟩

/-- C8: the only outcomes visible at the interface are exhaustion (no
handle) and success, where the returned handle is exactly what some
attempted pool's `allocate` produced; the embedding is a total function,
so no other failure channel exists. -/
theorem failure_channel {H : Type} (rng : Nat → Nat) (pools : List (Pool H))
    (objectSize : Nat) :
    resultOf (Allocate rng pools objectSize) = none ∨
    ∃ p ∈ traceOf (Allocate rng pools objectSize),
      p.alloc objectSize = resultOf (Allocate rng pools objectSize) := by
  rcases pools with _ | ⟨p0, _ | ⟨p1, rest⟩⟩
  · exact Or.inl rfl
  · exact Or.inr ⟨p0, List.mem_singleton.mpr rfl, rfl⟩
  · have hlen : (p0 :: p1 :: rest).length ≠ 1 := by simp
    rw [traceOf, resultOf, Allocate_ne_one rng _ objectSize hlen]
    by_cases he : (eligibleOf (p0 :: p1 :: rest) objectSize).isEmpty
    · rw [if_pos he]
      exact Or.inl rfl
    · rw [if_neg he]
      cases hres : (allocLoop rng objectSize
          (min max_try_limit (eligibleOf (p0 :: p1 :: rest) objectSize).length) 0
          (eligibleOf (p0 :: p1 :: rest) objectSize)).1 with
      | none => exact Or.inl rfl
      | some h =>
        obtain ⟨p, hp, hpa⟩ := allocLoop_result_mem rng objectSize _ 0 _ h hres
        exact Or.inr ⟨p, hp, hpa⟩

/-- C9: no invocation of `Allocate` ever reaches the out-of-bounds
indexing path: the eligible vector is non-empty at every draw of the
retry loop, so `eligible.size() - 1` never underflows and the drawn
index is always within bounds. -/
theorem no_oob {H : Type} (rng : Nat → Nat) (pools : List (Pool H)) (objectSize : Nat) :
    oobOf (Allocate rng pools objectSize) = false := by
  rcases pools with _ | ⟨p0, _ | ⟨p1, rest⟩⟩
  · rfl
  · rfl
  · have hlen : (p0 :: p1 :: rest).length ≠ 1 := by simp
    rw [oobOf, Allocate_ne_one rng _ objectSize hlen]
    by_cases he : (eligibleOf (p0 :: p1 :: rest) objectSize).isEmpty
    · rw [if_pos he]
    · rw [if_neg he]
      exact allocLoop_oob_false rng objectSize _ 0 _ (Nat.min_le_right _ _)

end Mooncake
